import Mathlib

/-
Verification of the track-constrained path resolution and motion-interpolation
engine of the dudewheresmytube repository.

The geometry layer (src/lib/trackGeometry.ts) — nearest-point search over
polylines, path extraction, arc-length interpolation — and the per-vehicle
animation store (the two useTrainPositions hook variants) are embedded as
functions over ℝ.  JavaScript numbers are modelled as real numbers; real
division by zero is Lean's 0 convention, which is only exercised here under
hypotheses that rule the degenerate cases out.
-/

namespace DWMT

/-- A planar longitude/latitude coordinate, as the source's `[number, number]`. -/
abbrev Coord : Type := ℝ × ℝ

/-- Euclidean distance on raw coordinates (trackGeometry.ts `distance`). -/
noncomputable def distance (a b : Coord) : ℝ :=
  Real.sqrt ((a.1 - b.1) * (a.1 - b.1) + (a.2 - b.2) * (a.2 - b.2))

/-- The geometry index maps a line name to the polylines registered under it
(trackGeometry.ts `lineSegments`; a name absent from the map has the empty
list, which `findTrackPath` treats identically to a missing entry). -/
abbrev LineIndex : Type := String → List (List Coord)

/-- One comparison of the nearest-point search (`if (d1 < fromDist)` in the
source): replace the best index/distance so far when the new distance is
strictly smaller; the `none` accumulator is the source's initial
index −1 / distance Infinity, which the first vertex always beats. -/
noncomputable def nearestUpd (i : ℕ) (d : ℝ) : Option (ℕ × ℝ) → Option (ℕ × ℝ)
  | none => some (i, d)
  | some (j, dj) => if d < dj then some (i, d) else some (j, dj)

/-- Nearest-point scan: walk the polyline keeping the first index whose
distance to `p` is strictly smaller than the best so far.  The source's
single loop in `findTrackPath` (lines 67–79) tracks the nearest index for
`from` and for `to` with this same recurrence. -/
noncomputable def nearestAux (p : Coord) :
    List Coord → ℕ → Option (ℕ × ℝ) → Option (ℕ × ℝ)
  | [], _, acc => acc
  | c :: rest, i, acc => nearestAux p rest (i + 1) (nearestUpd i (distance c p) acc)

/-- Index of (and distance to) the polyline vertex nearest to `p`;
`none` exactly for the empty polyline (the source's index −1). -/
noncomputable def nearestScan (p : Coord) (coords : List Coord) : Option (ℕ × ℝ) :=
  nearestAux p coords 0 none

/-- Nearest vertex index only, the value the source compares with `!==`. -/
noncomputable def nearestIdx (p : Coord) (coords : List Coord) : Option ℕ :=
  (nearestScan p coords).map Prod.fst

/-- Score of a polyline for a from/to pair: the sum of the two nearest-point
distances (`fromDist + toDist` in the source; 0 for the empty polyline,
which is never selected). -/
noncomputable def segScore (fromC toC : Coord) (coords : List Coord) : ℝ :=
  match nearestScan fromC coords, nearestScan toC coords with
  | some (_, fd), some (_, td) => fd + td
  | _, _ => 0

/-- One candidate comparison of `findTrackPath`'s segment loop (lines
58–89): score the polyline by the sum of its two nearest-point distances
and make it the new best when the score is strictly lower than the best so
far and its two nearest indices differ; the `none` accumulator is the
source's `bestSegment = null` / `bestScore = Infinity` state, against which
any finite score passes the strict comparison. -/
noncomputable def bestUpd (fromC toC : Coord) (seg : List Coord)
    (acc : Option (List Coord × ℕ × ℕ × ℝ)) : Option (List Coord × ℕ × ℕ × ℝ) :=
  match nearestScan fromC seg, nearestScan toC seg with
  | some (fi, fd), some (ti, td) =>
      let score := fd + td
      match acc with
      | none => if fi ≠ ti then some (seg, fi, ti, score) else none
      | some (bseg, bfi, bti, bscore) =>
          if score < bscore ∧ fi ≠ ti then some (seg, fi, ti, score)
          else some (bseg, bfi, bti, bscore)
  | _, _ => acc

/-- Best-segment selection fold of `findTrackPath`: fold `bestUpd` over the
line's polylines. -/
noncomputable def bestSegAux (fromC toC : Coord) :
    List (List Coord) → Option (List Coord × ℕ × ℕ × ℝ) →
      Option (List Coord × ℕ × ℕ × ℝ)
  | [], acc => acc
  | seg :: rest, acc => bestSegAux fromC toC rest (bestUpd fromC toC seg acc)

/-- The path resolver (trackGeometry.ts `findTrackPath`): select the best
polyline for the line name, slice the inclusive index range between the two
nearest indices, and reverse when the `from` index is the larger one. -/
noncomputable def findTrackPath (idx : LineIndex) (fromC toC : Coord)
    (lineName : String) : Option (List Coord) :=
  let segments := idx lineName
  if segments.isEmpty then none
  else
    match bestSegAux fromC toC segments none with
    | none => none
    | some (coords, bestFromIdx, bestToIdx, _) =>
        let startIdx := min bestFromIdx bestToIdx
        let endIdx := max bestFromIdx bestToIdx
        let path := (coords.drop startIdx).take (endIdx + 1 - startIdx)
        some (if bestFromIdx > bestToIdx then path.reverse else path)

/-- Line id → display name table (trackGeometry.ts `LINE_ID_TO_NAME`,
falling back to the id itself). -/
def getLineDisplayName (lineId : String) : String :=
  match lineId with
  | "bakerloo" => "Bakerloo"
  | "central" => "Central"
  | "circle" => "Circle"
  | "district" => "District"
  | "hammersmith-city" => "Hammersmith & City"
  | "jubilee" => "Jubilee"
  | "metropolitan" => "Metropolitan"
  | "northern" => "Northern"
  | "piccadilly" => "Piccadilly"
  | "victoria" => "Victoria"
  | "waterloo-city" => "Waterloo & City"
  | _ => lineId

/-- Total arc length of a path: the sum of consecutive-point segment lengths
(`totalLength` in `interpolateAlongPath`); `path.zip path.tail` is the list
of consecutive point pairs. -/
noncomputable def totalLength (path : List Coord) : ℝ :=
  ((path.zip path.tail).map (fun pq => distance pq.1 pq.2)).sum

/-- The forward walk of `interpolateAlongPath` (lines 136–152): accumulate
segment lengths until the cumulative length reaches the target distance,
then linearly interpolate within that segment by the fractional remainder;
fall back to the last point when the walk runs off the end. -/
noncomputable def walkSeg (target : ℝ) :
    ℝ → List (Coord × Coord) → Coord → Coord
  | _, [], fallback => fallback
  | currentDist, (p1, p2) :: rest, fallback =>
      let segLen := distance p1 p2
      if currentDist + segLen ≥ target then
        let segProgress := (target - currentDist) / segLen
        (p1.1 + (p2.1 - p1.1) * segProgress, p1.2 + (p2.2 - p1.2) * segProgress)
      else walkSeg target (currentDist + segLen) rest fallback

/-- The path sampler (trackGeometry.ts `interpolateAlongPath`): degenerate
early returns, then the arc-length walk at `progress * totalLength`. -/
noncomputable def interpolateAlongPath (path : List Coord) (progress : ℝ) : Coord :=
  if path.length = 0 then (0, 0)
  else if path.length = 1 then path.headI
  else if progress ≤ 0 then path.headI
  else if progress ≥ 1 then path.getLastD (0, 0)
  else if totalLength path = 0 then path.headI
  else walkSeg (progress * totalLength path) 0 (path.zip path.tail) (path.getLastD (0, 0))

/-- Arc-length position at which the walk of `interpolateAlongPath` places its
result: the cumulative length of the segments before the reached one plus the
fractional remainder times the reached segment's length (mirroring `walkSeg`
step for step, returning the traveled distance instead of the point). -/
noncomputable def walkSegDist (target : ℝ) :
    ℝ → List (Coord × Coord) → ℝ → ℝ
  | _, [], fallback => fallback
  | currentDist, (p1, p2) :: rest, fallback =>
      let segLen := distance p1 p2
      if currentDist + segLen ≥ target then
        currentDist + (target - currentDist) / segLen * segLen
      else walkSegDist target (currentDist + segLen) rest fallback

/-- Traveled arc-length distance from the start of `path` of the point
returned by `interpolateAlongPath path progress`: 0 for the degenerate and
`progress ≤ 0` early returns, the total length for `progress ≥ 1`, and the
walk's accumulated distance otherwise. -/
noncomputable def traveledAt (path : List Coord) (progress : ℝ) : ℝ :=
  if path.length = 0 then 0
  else if path.length = 1 then 0
  else if progress ≤ 0 then 0
  else if progress ≥ 1 then totalLength path
  else if totalLength path = 0 then 0
  else walkSegDist (progress * totalLength path) 0 (path.zip path.tail) (totalLength path)

/-- Vehicle snapshot fields consumed by the store (types/train.ts `Train`). -/
structure Train where
  id : String
  lineId : String
  lineName : String
  currentStation : String
  destination : String
  timeToStation : ℝ
  direction : String

/-- A timestamped position snapshot (`TrainKeyframe` of the track-path hook). -/
structure TrainKeyframe where
  position : Coord
  timestamp : ℝ

/-- Per-vehicle animation record of the track-path hook variant
(`TrainState` in useTrainPositions). -/
structure TrainState where
  current : TrainKeyframe
  previous : Option TrainKeyframe
  train : Train
  trail : List Coord
  trackPath : Option (List Coord)
  lastInterpolatedPosition : Option Coord
  velocity : Coord

/-- Ease-in-out quadratic easing (`easeInOutQuad`). -/
noncomputable def easeInOutQuad (t : ℝ) : ℝ :=
  if t < 0.5 then 2 * t * t else 1 - (-2 * t + 2) * (-2 * t + 2) / 2

/-- Linear interpolation (`lerp`). -/
def lerp (a b t : ℝ) : ℝ := a + (b - a) * t

/-- Critically damped spring smoothing step (`smoothDamp`), returning the new
value and the new velocity; the overshoot clamp compares the boolean signs of
`target - current > 0` and `newValue > target` exactly as the source's `===`. -/
noncomputable def smoothDamp (current target velocity smoothTime deltaTime : ℝ) :
    ℝ × ℝ :=
  let omega := 2 / smoothTime
  let x := omega * deltaTime
  let e := 1 / (1 + x + 0.48 * x * x + 0.235 * x * x * x)
  let change := current - target
  let temp := (velocity + omega * change) * deltaTime
  let newVelocity := (velocity - omega * temp) * e
  let newValue := target + (change + temp) * e
  if (target - current > 0) ↔ (newValue > target) then (target, 0)
  else (newValue, newVelocity)

/-- Two-argument arctangent: `atan2 y x` is the argument of the complex
number `x + y·i`, matching JavaScript's `Math.atan2(y, x)`. -/
noncomputable def atan2 (y x : ℝ) : ℝ := Complex.arg ⟨x, y⟩

/-- Bearing between two points (`calculateHeading`): `atan2(dLng, dLat)` in
degrees, shifted into [0, 360).  JavaScript's `%` on the positive dividend
`angle + 360` coincides with the flooring remainder used here. -/
noncomputable def calculateHeading (fromC toC : Coord) : ℝ :=
  let dLng := toC.1 - fromC.1
  let dLat := toC.2 - fromC.2
  let angle := atan2 dLng dLat * (180 / Real.pi)
  (angle + 360) - 360 * (Int.floor ((angle + 360) / 360) : ℝ)

/-- Animation duration constant of the track-path hook (14 s, ms). -/
def ANIMATION_DURATION : ℝ := 14000

/-- Trail cap of the track-path hook. -/
def TRAIL_LENGTH : ℕ := 20

/-- Spring smoothing time constant (seconds). -/
def SMOOTH_TIME : ℝ := 0.5

/-- The store keyed by vehicle id; `none` for ids with no record. -/
abbrev Store : Type := String → Option TrainState

/-- Point update of the store (`trainStates.current.set`). -/
def updateStore (store : Store) (id : String) (st : TrainState) : Store :=
  fun i => if i = id then some st else store i

/-- Record created on first sighting of a vehicle id (useTrainPositions
lines 129–140): single-point trail, no path, zero velocity. -/
def freshRecord (coords : Coord) (now : ℝ) (train : Train) : TrainState :=
  { previous := none
    current := { position := coords, timestamp := now }
    train := train
    trail := [coords]
    trackPath := none
    lastInterpolatedPosition := some coords
    velocity := (0, 0) }

/-- Ingestion step for a known vehicle (useTrainPositions lines 97–127).
When the resolved coordinate differs from the current keyframe position, the
record transitions: the previous keyframe takes the last interpolated
position with the superseded current keyframe's timestamp, the current
keyframe takes the fresh coordinate at `now`, the path resolver is invoked
from the last interpolated position to the fresh coordinate, and the
velocity is carried over; otherwise only the train metadata is refreshed. -/
noncomputable def ingestKnown (idx : LineIndex) (coords : Coord) (now : ℝ)
    (train : Train) (existing : TrainState) : TrainState :=
  if coords.1 ≠ existing.current.position.1 ∨ coords.2 ≠ existing.current.position.2 then
    let startPosition := existing.lastInterpolatedPosition.getD existing.current.position
    let lineName := getLineDisplayName train.lineId
    let trackPath := findTrackPath idx startPosition coords lineName
    { previous := some { position := startPosition, timestamp := existing.current.timestamp }
      current := { position := coords, timestamp := now }
      train := train
      trail := existing.trail
      trackPath := trackPath
      lastInterpolatedPosition := some startPosition
      velocity := existing.velocity }
  else
    { existing with train := train }

/-- Ingestion of one snapshot (the `trains.forEach` body, lines 91–141):
skip the vehicle when the station lookup fails, otherwise update the known
record or create a fresh one. -/
noncomputable def ingestTrain (lookup : String → Option Coord) (idx : LineIndex)
    (now : ℝ) (store : Store) (train : Train) : Store :=
  match lookup train.currentStation with
  | none => store
  | some coords =>
      match store train.id with
      | some existing => updateStore store train.id (ingestKnown idx coords now train existing)
      | none => updateStore store train.id (freshRecord coords now train)

/-- Ingestion of a whole snapshot batch, in order. -/
noncomputable def ingestBatch (lookup : String → Option Coord) (idx : LineIndex)
    (now : ℝ) (store : Store) (trains : List Train) : Store :=
  trains.foldl (fun s t => ingestTrain lookup idx now s t) store

/-- Immediate eviction pass of the track-path hook (lines 143–149): every
record whose id is absent from the batch is removed. -/
def evictStale (trains : List Train) (store : Store) : Store :=
  fun id => if id ∈ trains.map Train.id then store id else none

/-- One full data-ingestion cycle of the track-path hook: process the batch,
then remove stale records, both against the same batch and clock. -/
noncomputable def processCycle (lookup : String → Option Coord) (idx : LineIndex)
    (now : ℝ) (store : Store) (trains : List Train) : Store :=
  evictStale trains (ingestBatch lookup idx now store trains)

/-- JavaScript `array.slice(-n)`: the last `min n length` elements. -/
def takeLast (n : ℕ) (l : List Coord) : List Coord := l.drop (l.length - n)

/-- Straight-line fallback target and heading of the animation tick
(lines 185–196): lerp between the previous and current keyframes; heading 0
when the two keyframe positions coincide. -/
noncomputable def straightTarget (previous current : TrainKeyframe)
    (progress : ℝ) : Coord × ℝ :=
  ((lerp previous.position.1 current.position.1 progress,
    lerp previous.position.2 current.position.2 progress),
   if previous.position.1 ≠ current.position.1 ∨ previous.position.2 ≠ current.position.2
   then calculateHeading previous.position current.position
   else 0)

/-- One animation-driver tick for one record (the `trainStates.forEach` body
of `animate`, lines 160–241), returning the new record, the rendered
position, and the heading.  The source indexes `trail[trail.length - 1]`,
well defined because a record's trail is never empty (proved below);
`getLastD` supplies the origin default in the unreachable empty case. -/
noncomputable def tickRecord (now deltaTime : ℝ) (state : TrainState) :
    TrainState × Coord × ℝ :=
  match state.previous with
  | some previous =>
      let elapsed := now - state.current.timestamp
      let rawProgress := min (elapsed / ANIMATION_DURATION) 1
      let progress := easeInOutQuad rawProgress
      let th : Coord × ℝ :=
        match state.trackPath with
        | some tp =>
            if 2 ≤ tp.length then
              (interpolateAlongPath tp progress,
               calculateHeading (interpolateAlongPath tp (max 0 (progress - 0.05)))
                 (interpolateAlongPath tp (min 1 (progress + 0.05))))
            else straightTarget previous state.current progress
        | none => straightTarget previous state.current progress
      let currentPos := state.lastInterpolatedPosition.getD previous.position
      let smoothX := smoothDamp currentPos.1 th.1.1 state.velocity.1 SMOOTH_TIME deltaTime
      let smoothY := smoothDamp currentPos.2 th.1.2 state.velocity.2 SMOOTH_TIME deltaTime
      let position : Coord := (smoothX.1, smoothY.1)
      let lastTrailPos := state.trail.getLastD (0, 0)
      let d := |position.1 - lastTrailPos.1| + |position.2 - lastTrailPos.2|
      let trail' := if d > 0.00003 then takeLast TRAIL_LENGTH (state.trail ++ [position])
                    else state.trail
      ({ state with
          velocity := (smoothX.2, smoothY.2)
          lastInterpolatedPosition := some position
          trail := trail' },
       position, th.2)
  | none =>
      ({ state with
          lastInterpolatedPosition := some state.current.position
          velocity := (0, 0) },
       state.current.position, 0)

/-- Record states reachable through the store's lifecycle: creation on first
sighting, ingestion updates for a known vehicle, and animation ticks. -/
inductive Reachable : TrainState → Prop where
  | create (coords : Coord) (now : ℝ) (train : Train) :
      Reachable (freshRecord coords now train)
  | ingest (idx : LineIndex) (coords : Coord) (now : ℝ) (train : Train)
      {s : TrainState} : Reachable s → Reachable (ingestKnown idx coords now train s)
  | tick (now deltaTime : ℝ) {s : TrainState} :
      Reachable s → Reachable (tickRecord now deltaTime s).1

/-- Keyframe of the grace-window hook variant (second `TrainKeyframe`). -/
structure TrainKeyframeB where
  position : Coord
  timestamp : ℝ
  timeToStation : ℝ

/-- Per-vehicle record of the grace-window hook variant. -/
structure TrainStateB where
  current : TrainKeyframeB
  previous : Option TrainKeyframeB
  train : Train
  trail : List Coord
  velocity : Coord

/-- Store of the grace-window hook variant. -/
abbrev StoreB : Type := String → Option TrainStateB

/-- Point update of the grace-window store. -/
def updateStoreB (store : StoreB) (id : String) (st : TrainStateB) : StoreB :=
  fun i => if i = id then some st else store i

/-- Predictive-movement speed constant of the grace-window hook variant. -/
def PREDICTION_SPEED : ℝ := 0.00001

/-- Ingestion of one snapshot in the grace-window hook variant (lines
333–366): skip on lookup failure, otherwise shift the current keyframe to
previous, record the fresh coordinate at `now`, and renormalize velocity. -/
noncomputable def ingestTrainB (lookup : String → Option Coord) (now : ℝ)
    (store : StoreB) (train : Train) : StoreB :=
  match lookup train.currentStation with
  | none => store
  | some coords =>
      match store train.id with
      | some existing =>
          let dx := coords.1 - existing.current.position.1
          let dy := coords.2 - existing.current.position.2
          let d := Real.sqrt (dx * dx + dy * dy)
          let velocity : Coord :=
            if d > 0.0001 then (dx / d * PREDICTION_SPEED, dy / d * PREDICTION_SPEED)
            else existing.velocity
          updateStoreB store train.id
            { previous := some existing.current
              current := { position := coords, timestamp := now,
                           timeToStation := train.timeToStation }
              train := train
              trail := existing.trail
              velocity := velocity }
      | none =>
          updateStoreB store train.id
            { previous := none
              current := { position := coords, timestamp := now,
                           timeToStation := train.timeToStation }
              train := train
              trail := [coords]
              velocity := (0, 0) }

/-- Batch ingestion in the grace-window hook variant. -/
noncomputable def ingestBatchB (lookup : String → Option Coord) (now : ℝ)
    (store : StoreB) (trains : List Train) : StoreB :=
  trains.foldl (fun s t => ingestTrainB lookup now s t) store

/-- Grace-window eviction pass (lines 368–374): a record absent from the
batch is removed only when more than 60 s have passed since its current
keyframe's timestamp. -/
noncomputable def evictStaleB (now : ℝ) (trains : List Train) (store : StoreB) : StoreB :=
  fun id =>
    match store id with
    | none => none
    | some st =>
        if id ∈ trains.map Train.id then some st
        else if now - st.current.timestamp > 60000 then none
        else some st

/-- One full data-ingestion cycle of the grace-window hook variant. -/
noncomputable def processCycleB (lookup : String → Option Coord) (now : ℝ)
    (store : StoreB) (trains : List Train) : StoreB :=
  evictStaleB now trains (ingestBatchB lookup now store trains)

/-- Concrete snapshot used to instantiate the store theorems. -/
def trainEx : Train :=
  { id := "t1", lineId := "victoria", lineName := "Victoria",
    currentStation := "Oxford Circus", destination := "Brixton",
    timeToStation := 60, direction := "outbound" }

/-- Concrete known-vehicle record used to instantiate the store theorems:
current keyframe at the origin with timestamp 0, a carried velocity, and a
last interpolated position away from the origin. -/
def stateEx : TrainState :=
  { current := { position := (0, 0), timestamp := 0 }
    previous := none
    train := trainEx
    trail := [(0, 0)]
    trackPath := none
    lastInterpolatedPosition := some (0, 0)
    velocity := (2, 3) }

/-- Concrete grace-window record used to instantiate the eviction theorem:
its current keyframe timestamp is 0. -/
def stateBEx : TrainStateB :=
  { current := { position := (0, 0), timestamp := 0, timeToStation := 30 }
    previous := none
    train := trainEx
    trail := [(0, 0)]
    velocity := (0, 0) }

/-- Concrete grace-window store holding only `stateBEx` under id "t1". -/
def storeBEx : StoreB := fun i => if i = "t1" then some stateBEx else none

/-- Concrete mid-transition record: the fresh record at the origin after one
station-change ingestion to (1, 0); it is reachable and has a previous
keyframe. -/
noncomputable def stateEx2 : TrainState :=
  ingestKnown (fun _ => []) ((1 : ℝ), (0 : ℝ)) 1000 trainEx
    (freshRecord ((0 : ℝ), (0 : ℝ)) 0 trainEx)

/-- What the selection fold guarantees after scanning `seen`: while no
polyline has qualified every scanned polyline is degenerate (equal nearest
indices); once one has, the accumulator holds a scanned, non-degenerate
polyline whose score is least among all scanned non-degenerate ones. -/
def SelInv (fromC toC : Coord) (seen : List (List Coord))
    (acc : Option (List Coord × ℕ × ℕ × ℝ)) : Prop :=
  match acc with
  | none => ∀ seg ∈ seen, nearestIdx fromC seg = nearestIdx toC seg
  | some (seg, fi, ti, sc) =>
      seg ∈ seen ∧
      (∃ fd, nearestScan fromC seg = some (fi, fd)) ∧
      (∃ td, nearestScan toC seg = some (ti, td)) ∧
      fi ≠ ti ∧ sc = segScore fromC toC seg ∧
      ∀ s2 ∈ seen, nearestIdx fromC s2 ≠ nearestIdx toC s2 →
        sc ≤ segScore fromC toC s2

/-- Concrete polyline used to instantiate the geometry theorems. -/
def polyEx : List Coord := [(0, 0), (3, 0), (6, 0)]

/-- Concrete two-point path of strictly increasing arc length. -/
def pathEx : List Coord := [(0, 0), (3, 0)]

/-- Evaluation helper: the distance between two points on a horizontal line. -/
lemma distance_horiz (x y c : ℝ) : distance (x, c) (y, c) = |x - y| := by
  have h : (x - y) * (x - y) + (c - c) * (c - c) = (x - y) ^ 2 := by ring
  simp only [distance, h]
  exact Real.sqrt_sq_eq_abs (x - y)

lemma distance_nonneg (a b : Coord) : 0 ≤ distance a b := Real.sqrt_nonneg _

lemma distance_self (a : Coord) : distance a a = 0 := by
  simp [distance]

/-- Zero distance forces equal coordinates (real arithmetic, no rounding). -/
lemma distance_eq_zero {a b : Coord} (h : distance a b = 0) : a = b := by
  have h1 : (a.1 - b.1) * (a.1 - b.1) + (a.2 - b.2) * (a.2 - b.2) = 0 := by
    have hx : (0 : ℝ) ≤ (a.1 - b.1) * (a.1 - b.1) := mul_self_nonneg _
    have hy : (0 : ℝ) ≤ (a.2 - b.2) * (a.2 - b.2) := mul_self_nonneg _
    have := Real.sqrt_eq_zero (by linarith) |>.mp h
    linarith [this]
  have hx : a.1 - b.1 = 0 := by nlinarith [mul_self_nonneg (a.1 - b.1), mul_self_nonneg (a.2 - b.2)]
  have hy : a.2 - b.2 = 0 := by nlinarith [mul_self_nonneg (a.1 - b.1), mul_self_nonneg (a.2 - b.2)]
  have : a = (a.1, a.2) := rfl
  rw [this, Prod.ext_iff]
  constructor <;> simp <;> linarith

/-- C1 (amended): on a station-change ingestion for a known vehicle, the new
previous keyframe is the last interpolated position stamped with the
superseded current keyframe's timestamp (not the ingestion time), the new
current keyframe is the freshly resolved coordinate at the ingestion time
`now`, and the path resolver is invoked for the new transition. -/
theorem ingest_transition_keyframes (idx : LineIndex) (coords : Coord) (now : ℝ)
    (train : Train) (existing : TrainState)
    (hchanged : coords.1 ≠ existing.current.position.1 ∨
      coords.2 ≠ existing.current.position.2) :
    (ingestKnown idx coords now train existing).previous =
      some { position := existing.lastInterpolatedPosition.getD existing.current.position,
             timestamp := existing.current.timestamp } ∧
    (ingestKnown idx coords now train existing).current =
      { position := coords, timestamp := now } ∧
    (ingestKnown idx coords now train existing).trackPath =
      findTrackPath idx (existing.lastInterpolatedPosition.getD existing.current.position)
        coords (getLineDisplayName train.lineId) := by
  unfold ingestKnown
  rw [if_pos hchanged]
  exact ⟨rfl, rfl, rfl⟩

/-- C1 witness: the amended transition law evaluated on a concrete record
whose current keyframe is at the origin with timestamp 0, ingesting the
coordinate (1, 0) at time 1000. -/
theorem ingest_transition_keyframes_witness :
    ((((1 : ℝ), (0 : ℝ)) : Coord).1 ≠ stateEx.current.position.1 ∨
      (((1 : ℝ), (0 : ℝ)) : Coord).2 ≠ stateEx.current.position.2) ∧
    ((ingestKnown (fun _ => []) ((1 : ℝ), (0 : ℝ)) 1000 trainEx stateEx).previous =
      some { position := stateEx.lastInterpolatedPosition.getD stateEx.current.position,
             timestamp := stateEx.current.timestamp } ∧
     (ingestKnown (fun _ => []) ((1 : ℝ), (0 : ℝ)) 1000 trainEx stateEx).current =
      { position := ((1 : ℝ), (0 : ℝ)), timestamp := 1000 } ∧
     (ingestKnown (fun _ => []) ((1 : ℝ), (0 : ℝ)) 1000 trainEx stateEx).trackPath =
      findTrackPath (fun _ => [])
        (stateEx.lastInterpolatedPosition.getD stateEx.current.position)
        ((1 : ℝ), (0 : ℝ)) (getLineDisplayName trainEx.lineId)) :=
  ⟨by norm_num [stateEx],
   ingest_transition_keyframes (fun _ => []) ((1 : ℝ), (0 : ℝ)) 1000 trainEx stateEx
     (by norm_num [stateEx])⟩

/-- C1 counterexample: ingesting a changed coordinate at time 1000 into a
record whose current keyframe has timestamp 0 produces a previous keyframe
stamped 0 — the superseded keyframe's timestamp — and not, as the claim
states, the ingestion time 1000. -/
theorem ingest_transition_timestamp_cex :
    (ingestKnown (fun _ => []) ((1 : ℝ), (0 : ℝ)) 1000 trainEx stateEx).previous =
      some { position := ((0 : ℝ), (0 : ℝ)), timestamp := (0 : ℝ) } ∧
    (ingestKnown (fun _ => []) ((1 : ℝ), (0 : ℝ)) 1000 trainEx stateEx).previous ≠
      some { position := ((0 : ℝ), (0 : ℝ)), timestamp := (1000 : ℝ) } := by
  have h : (((1 : ℝ), (0 : ℝ)) : Coord).1 ≠ stateEx.current.position.1 ∨
      (((1 : ℝ), (0 : ℝ)) : Coord).2 ≠ stateEx.current.position.2 := by
    norm_num [stateEx]
  unfold ingestKnown
  rw [if_pos h]
  refine ⟨by norm_num [stateEx], ?_⟩
  simp only [stateEx, Option.getD, ne_eq, Option.some.injEq, TrainKeyframe.mk.injEq]
  norm_num

/-- C2: on a station-change ingestion for a known vehicle, the smoothing
velocity after the transition equals the smoothing velocity immediately
before it; a new keyframe never resets it to zero. -/
theorem velocity_carry_over (idx : LineIndex) (coords : Coord) (now : ℝ)
    (train : Train) (existing : TrainState)
    (hchanged : coords.1 ≠ existing.current.position.1 ∨
      coords.2 ≠ existing.current.position.2) :
    (ingestKnown idx coords now train existing).velocity = existing.velocity := by
  unfold ingestKnown
  rw [if_pos hchanged]

/-- C2 witness: velocity carry-over evaluated on the concrete record with
carried velocity (2, 3) undergoing the transition to (1, 0) at time 1000. -/
theorem velocity_carry_over_witness :
    ((((1 : ℝ), (0 : ℝ)) : Coord).1 ≠ stateEx.current.position.1 ∨
      (((1 : ℝ), (0 : ℝ)) : Coord).2 ≠ stateEx.current.position.2) ∧
    (ingestKnown (fun _ => []) ((1 : ℝ), (0 : ℝ)) 1000 trainEx stateEx).velocity =
      stateEx.velocity :=
  ⟨by norm_num [stateEx],
   velocity_carry_over (fun _ => []) ((1 : ℝ), (0 : ℝ)) 1000 trainEx stateEx
     (by norm_num [stateEx])⟩

lemma totalLength_nonneg (path : List Coord) : 0 ≤ totalLength path := by
  apply List.sum_nonneg
  intro x hx
  obtain ⟨pq, _, rfl⟩ := List.mem_map.mp hx
  exact distance_nonneg _ _

/-- On a path of total arc length zero every point coincides, so the last
point is the first point. -/
lemma totalLength_zero_const :
    ∀ path : List Coord, totalLength path = 0 → path.getLastD (0, 0) = path.headI
  | [], _ => rfl
  | [_], _ => rfl
  | p :: q :: rest, h => by
      have hzip : (p :: q :: rest).zip (p :: q :: rest).tail =
          (p, q) :: ((q :: rest).zip (q :: rest).tail) := rfl
      have hsum : totalLength (p :: q :: rest) =
          distance p q + totalLength (q :: rest) := by
        simp [totalLength, hzip]
      have hd0 : distance p q = 0 ∧ totalLength (q :: rest) = 0 := by
        constructor <;>
          nlinarith [distance_nonneg p q, totalLength_nonneg (q :: rest), hsum, h]
      have hpq : p = q := distance_eq_zero hd0.1
      have ih := totalLength_zero_const (q :: rest) hd0.2
      calc (p :: q :: rest).getLastD (0, 0) = (q :: rest).getLastD (0, 0) := rfl
        _ = (q :: rest).headI := ih
        _ = (p :: q :: rest).headI := by simp [hpq]

/-- C5: sampler degenerate-input laws — the empty path samples to the origin
default, a single-point path samples to its point for any progress, progress
at or below 0 yields the first point, progress at or above 1 yields the last
point, and a path of total arc length zero yields its first point; the
sampler is a total function and never raises. -/
theorem sampler_boundary_laws :
    (∀ t : ℝ, interpolateAlongPath [] t = (0, 0)) ∧
    (∀ (p : Coord) (t : ℝ), interpolateAlongPath [p] t = p) ∧
    (∀ (path : List Coord) (t : ℝ), path ≠ [] → t ≤ 0 →
       interpolateAlongPath path t = path.headI) ∧
    (∀ (path : List Coord) (t : ℝ), path ≠ [] → 1 ≤ t →
       interpolateAlongPath path t = path.getLastD (0, 0)) ∧
    (∀ (path : List Coord) (t : ℝ), totalLength path = 0 →
       interpolateAlongPath path t = path.headI) := by
  refine ⟨fun t => by simp [interpolateAlongPath],
    fun p t => by simp [interpolateAlongPath],
    fun path t hne ht => ?_, fun path t hne ht => ?_, fun path t htot => ?_⟩
  · unfold interpolateAlongPath
    rcases eq_or_ne path.length 0 with h0 | h0
    · exact absurd (List.length_eq_zero.mp h0) hne
    rw [if_neg h0]
    rcases eq_or_ne path.length 1 with h1 | h1
    · rw [if_pos h1]
    rw [if_neg h1, if_pos ht]
  · unfold interpolateAlongPath
    rcases eq_or_ne path.length 0 with h0 | h0
    · exact absurd (List.length_eq_zero.mp h0) hne
    rw [if_neg h0]
    rcases eq_or_ne path.length 1 with h1 | h1
    · rw [if_pos h1]
      obtain ⟨p, rfl⟩ := List.length_eq_one.mp h1
      rfl
    rw [if_neg h1]
    by_cases h2 : t ≤ 0
    · linarith
    rw [if_neg h2, if_pos ht]
  · unfold interpolateAlongPath
    by_cases h0 : path.length = 0
    · rw [if_pos h0]
      obtain rfl := List.length_eq_zero.mp h0
      rfl
    rw [if_neg h0]
    by_cases h1 : path.length = 1
    · rw [if_pos h1]
    rw [if_neg h1]
    by_cases h2 : t ≤ 0
    · rw [if_pos h2]
    rw [if_neg h2]
    by_cases h3 : t ≥ 1
    · rw [if_pos h3]
      exact totalLength_zero_const path htot
    rw [if_neg h3, if_pos htot]

/-- C5 witness: the progress-below-zero law evaluated on the concrete
two-point path [(1, 2), (3, 4)] at progress −1. -/
theorem sampler_boundary_laws_witness :
    (([((1 : ℝ), (2 : ℝ)), (3, 4)] : List Coord) ≠ [] ∧ (-1 : ℝ) ≤ 0) ∧
    interpolateAlongPath [((1 : ℝ), (2 : ℝ)), (3, 4)] (-1) =
      ([((1 : ℝ), (2 : ℝ)), (3, 4)] : List Coord).headI :=
  ⟨⟨by simp, by norm_num⟩,
   sampler_boundary_laws.2.2.1 [((1 : ℝ), (2 : ℝ)), (3, 4)] (-1) (by simp) (by norm_num)⟩

lemma ingestTrain_ne (lookup : String → Option Coord) (idx : LineIndex) (now : ℝ)
    (store : Store) (train : Train) (id : String) (h : id ≠ train.id) :
    ingestTrain lookup idx now store train id = store id := by
  unfold ingestTrain
  cases lookup train.currentStation with
  | none => rfl
  | some coords =>
      cases store train.id with
      | some existing => simp [updateStore, h]
      | none => simp [updateStore, h]

lemma ingestBatch_absent (lookup : String → Option Coord) (idx : LineIndex) (now : ℝ) :
    ∀ (trains : List Train) (store : Store) (id : String),
      id ∉ trains.map Train.id →
      ingestBatch lookup idx now store trains id = store id := by
  intro trains
  induction trains with
  | nil => intro store id _; rfl
  | cons t rest ih =>
      intro store id h
      rw [List.map_cons, List.mem_cons] at h
      push_neg at h
      simp only [ingestBatch, List.foldl_cons]
      have hrest := ih (ingestTrain lookup idx now store t) id h.2
      simp only [ingestBatch] at hrest
      rw [hrest, ingestTrain_ne lookup idx now store t id h.1]

lemma ingestTrainB_ne (lookup : String → Option Coord) (now : ℝ)
    (store : StoreB) (train : Train) (id : String) (h : id ≠ train.id) :
    ingestTrainB lookup now store train id = store id := by
  unfold ingestTrainB
  cases lookup train.currentStation with
  | none => rfl
  | some coords =>
      cases store train.id with
      | some existing => simp [updateStoreB, h]
      | none => simp [updateStoreB, h]

lemma ingestBatchB_absent (lookup : String → Option Coord) (now : ℝ) :
    ∀ (trains : List Train) (store : StoreB) (id : String),
      id ∉ trains.map Train.id →
      ingestBatchB lookup now store trains id = store id := by
  intro trains
  induction trains with
  | nil => intro store id _; rfl
  | cons t rest ih =>
      intro store id h
      rw [List.map_cons, List.mem_cons] at h
      push_neg at h
      simp only [ingestBatchB, List.foldl_cons]
      have hrest := ih (ingestTrainB lookup now store t) id h.2
      simp only [ingestBatchB] at hrest
      rw [hrest, ingestTrainB_ne lookup now store t id h.1]

/-- C8: after a full ingestion cycle, a record whose id is absent from the
batch is removed immediately in the immediate-eviction hook variant, and in
the grace-window hook variant it is removed exactly when more than 60 s have
elapsed since its current keyframe's timestamp, and retained unchanged
otherwise. -/
theorem eviction_policy (lookup : String → Option Coord) (idx : LineIndex) (now : ℝ)
    (trains : List Train) (storeA : Store) (storeB : StoreB) (id : String)
    (h : id ∉ trains.map Train.id) :
    processCycle lookup idx now storeA trains id = none ∧
    processCycleB lookup now storeB trains id =
      (match storeB id with
       | none => none
       | some st => if now - st.current.timestamp > 60000 then none else some st) := by
  constructor
  · unfold processCycle evictStale
    rw [if_neg h]
  · unfold processCycleB evictStaleB
    rw [ingestBatchB_absent lookup now trains storeB id h]
    cases storeB id with
    | none => rfl
    | some st => simp [h]

/-- C8 witness: the eviction law evaluated on the empty batch at time 70000
against a store holding one record last keyed at time 0. -/
theorem eviction_policy_witness :
    ("t1" ∉ ([] : List Train).map Train.id) ∧
    (processCycle (fun _ => none) (fun _ => []) 70000 (fun _ => none) [] "t1" = none ∧
     processCycleB (fun _ => none) 70000 storeBEx [] "t1" =
       (match storeBEx "t1" with
        | none => none
        | some st => if (70000 : ℝ) - st.current.timestamp > 60000 then none
                     else some st)) :=
  ⟨by simp,
   eviction_policy (fun _ => none) (fun _ => []) 70000 [] (fun _ => none) storeBEx "t1"
     (by simp)⟩

/-- C9: a vehicle whose station name fails coordinate lookup in every
occurrence of its id in the batch has its record left completely unchanged
by the ingestion pass, and the same-batch eviction pass does not remove it
(its id is in the batch's id set); nothing raises. -/
theorem lookup_failure_skips (lookup : String → Option Coord) (idx : LineIndex)
    (now : ℝ) (trains : List Train) (store : Store) (train : Train)
    (hmem : train ∈ trains)
    (hfail : ∀ t ∈ trains, t.id = train.id → lookup t.currentStation = none) :
    processCycle lookup idx now store trains train.id = store train.id := by
  have hbatch : ∀ (trains2 : List Train) (store2 : Store),
      (∀ t ∈ trains2, t.id = train.id → lookup t.currentStation = none) →
      ingestBatch lookup idx now store2 trains2 train.id = store2 train.id := by
    intro trains2
    induction trains2 with
    | nil => intro store2 _; rfl
    | cons t rest ih =>
        intro store2 hf
        simp only [ingestBatch, List.foldl_cons]
        have step : ingestTrain lookup idx now store2 t train.id = store2 train.id := by
          by_cases hid : train.id = t.id
          · have hnone := hf t (List.mem_cons_self t rest) hid.symm
            unfold ingestTrain
            rw [hnone]
          · exact ingestTrain_ne lookup idx now store2 t train.id hid
        have hrest := ih (ingestTrain lookup idx now store2 t)
          (fun t2 ht2 => hf t2 (List.mem_cons_of_mem t ht2))
        simp only [ingestBatch] at hrest
        rw [hrest, step]
  unfold processCycle evictStale
  rw [if_pos (List.mem_map_of_mem Train.id hmem), hbatch trains store hfail]

/-- C9 witness: the lookup-failure law evaluated on the one-train batch whose
station never resolves, against the empty store. -/
theorem lookup_failure_skips_witness :
    (trainEx ∈ [trainEx] ∧
      ∀ t ∈ [trainEx], t.id = trainEx.id →
        (fun _ => (none : Option Coord)) t.currentStation = none) ∧
    processCycle (fun _ => none) (fun _ => []) 0 (fun _ => none) [trainEx] trainEx.id =
      (fun _ => (none : Option TrainState)) trainEx.id :=
  ⟨⟨by simp, by simp⟩,
   lookup_failure_skips (fun _ => none) (fun _ => []) 0 [trainEx] (fun _ => none) trainEx
     (by simp) (by simp)⟩

lemma takeLast_length_le (n : ℕ) (l : List Coord) : (takeLast n l).length ≤ n := by
  simp only [takeLast, List.length_drop]
  omega

/-- Trail length is preserved or re-capped by every lifecycle step. -/
lemma reachable_trail_length {s : TrainState} (h : Reachable s) :
    s.trail.length ≤ TRAIL_LENGTH := by
  induction h with
  | create coords now train => simp [freshRecord, TRAIL_LENGTH]
  | ingest idx coords now train hr ih =>
      unfold ingestKnown
      split_ifs with hc
      · exact ih
      · exact ih
  | tick now deltaTime hr ih =>
      rename_i s'
      unfold tickRecord
      cases hp : s'.previous with
      | none => exact ih
      | some p =>
          simp only
          split_ifs with hd
          · exact takeLast_length_le _ _
          · exact ih

/-- The tick's trail update: the rendered position is appended only when its
Manhattan distance from the last trail entry exceeds the threshold, and the
capped trail keeps the newest entries, dropping the oldest. -/
lemma tick_trail_update (s : TrainState) (now deltaTime : ℝ) (p : TrainKeyframe)
    (hprev : s.previous = some p) :
    (¬ (|(tickRecord now deltaTime s).2.1.1 - (s.trail.getLastD (0, 0)).1| +
        |(tickRecord now deltaTime s).2.1.2 - (s.trail.getLastD (0, 0)).2| > 0.00003) →
      (tickRecord now deltaTime s).1.trail = s.trail) ∧
    ((|(tickRecord now deltaTime s).2.1.1 - (s.trail.getLastD (0, 0)).1| +
      |(tickRecord now deltaTime s).2.1.2 - (s.trail.getLastD (0, 0)).2| > 0.00003) →
      (tickRecord now deltaTime s).1.trail =
        (s.trail ++ [(tickRecord now deltaTime s).2.1]).drop
          (s.trail.length + 1 - TRAIL_LENGTH)) := by
  simp only [tickRecord, hprev]
  constructor
  · intro hd
    rw [if_neg hd]
  · intro hd
    rw [if_pos hd]
    simp [takeLast, List.length_append]

/-- C7: for every reachable record the trail never exceeds the fixed cap of
20, and each tick appends the freshly rendered position only when its
Manhattan distance from the last trail entry exceeds the minimum threshold,
evicting oldest entries first (the new trail is the suffix of the appended
trail that fits the cap). -/
theorem trail_bound {s : TrainState} (h : Reachable s) :
    s.trail.length ≤ TRAIL_LENGTH ∧
    ∀ (now deltaTime : ℝ) (p : TrainKeyframe), s.previous = some p →
      (¬ (|(tickRecord now deltaTime s).2.1.1 - (s.trail.getLastD (0, 0)).1| +
          |(tickRecord now deltaTime s).2.1.2 - (s.trail.getLastD (0, 0)).2| > 0.00003) →
        (tickRecord now deltaTime s).1.trail = s.trail) ∧
      ((|(tickRecord now deltaTime s).2.1.1 - (s.trail.getLastD (0, 0)).1| +
        |(tickRecord now deltaTime s).2.1.2 - (s.trail.getLastD (0, 0)).2| > 0.00003) →
        (tickRecord now deltaTime s).1.trail =
          (s.trail ++ [(tickRecord now deltaTime s).2.1]).drop
            (s.trail.length + 1 - TRAIL_LENGTH)) :=
  ⟨reachable_trail_length h,
   fun now deltaTime p hp => tick_trail_update s now deltaTime p hp⟩

/-- C7 witness: the trail bound evaluated on the concrete reachable
mid-transition record. -/
theorem trail_bound_witness :
    Reachable stateEx2 ∧ stateEx2.trail.length ≤ TRAIL_LENGTH :=
  ⟨Reachable.ingest (fun _ => []) ((1 : ℝ), (0 : ℝ)) 1000 trainEx
     (Reachable.create ((0 : ℝ), (0 : ℝ)) 0 trainEx),
   (trail_bound (Reachable.ingest (fun _ => []) ((1 : ℝ), (0 : ℝ)) 1000 trainEx
     (Reachable.create ((0 : ℝ), (0 : ℝ)) 0 trainEx))).1⟩

lemma nearestAux_lt_length (p : Coord) :
    ∀ (coords : List Coord) (i : ℕ) (acc : Option (ℕ × ℝ)),
      (∀ k d, acc = some (k, d) → k < i) →
      ∀ k d, nearestAux p coords i acc = some (k, d) → k < i + coords.length := by
  intro coords
  induction coords with
  | nil =>
      intro i acc hacc k d h
      simp only [nearestAux] at h
      have := hacc k d h
      simp only [List.length_nil]
      omega
  | cons c rest ih =>
      intro i acc hacc k d h
      simp only [nearestAux] at h
      have hacc' : ∀ k2 d2, nearestUpd i (distance c p) acc = some (k2, d2) → k2 < i + 1 := by
        intro k2 d2 hj
        cases acc with
        | none =>
            simp only [nearestUpd, Option.some.injEq, Prod.mk.injEq] at hj
            omega
        | some pair =>
            obtain ⟨j2, dj⟩ := pair
            simp only [nearestUpd] at hj
            by_cases hlt : distance c p < dj
            · rw [if_pos hlt] at hj
              simp only [Option.some.injEq, Prod.mk.injEq] at hj
              omega
            · rw [if_neg hlt] at hj
              simp only [Option.some.injEq, Prod.mk.injEq] at hj
              have := hacc j2 dj rfl
              omega
      have hres := ih (i + 1) _ hacc' k d h
      simp only [List.length_cons]
      omega

lemma nearestScan_lt_length {p : Coord} {coords : List Coord} {k : ℕ} {d : ℝ}
    (h : nearestScan p coords = some (k, d)) : k < coords.length := by
  have := nearestAux_lt_length p coords 0 none (by intro k2 d2 h2; cases h2) k d h
  omega

/-- C3: for a polyline whose nearest index to `from` is i and to `to` is j
with i < j, the resolver returns the inclusive slice polyline[i..j], which
begins at polyline[i] and ends at polyline[j]; swapping `from` and `to`
returns exactly the reverse sequence. -/
theorem path_extraction_orientation (idx : LineIndex) (name : String)
    (poly : List Coord) (fromC toC : Coord) (i j : ℕ) (df dt : ℝ)
    (hidx : idx name = [poly])
    (hf : nearestScan fromC poly = some (i, df))
    (ht : nearestScan toC poly = some (j, dt))
    (hij : i < j) :
    findTrackPath idx fromC toC name = some ((poly.drop i).take (j + 1 - i)) ∧
    ((poly.drop i).take (j + 1 - i)).headI = poly.getD i (0, 0) ∧
    ((poly.drop i).take (j + 1 - i)).getLastD (0, 0) = poly.getD j (0, 0) ∧
    findTrackPath idx toC fromC name = some (((poly.drop i).take (j + 1 - i)).reverse) := by
  have hjlen : j < poly.length := nearestScan_lt_length ht
  have hilen : i < poly.length := nearestScan_lt_length hf
  have hne : i ≠ j := Nat.ne_of_lt hij
  have hfwd : bestSegAux fromC toC [poly] none = some (poly, i, j, df + dt) := by
    simp only [bestSegAux, bestUpd, hf, ht]
    rw [if_pos hne]
  have hbwd : bestSegAux toC fromC [poly] none = some (poly, j, i, dt + df) := by
    simp only [bestSegAux, bestUpd, hf, ht]
    rw [if_pos (Ne.symm hne)]
  refine ⟨?_, ?_, ?_, ?_⟩
  · simp only [findTrackPath, hidx, List.isEmpty_cons, hfwd]
    rw [min_eq_left (Nat.le_of_lt hij), max_eq_right (Nat.le_of_lt hij),
      if_neg (by omega : ¬ i > j)]
    simp
  · rw [List.drop_eq_getElem_cons hilen,
      show j + 1 - i = (j - i) + 1 by omega, List.take_succ_cons, List.headI_cons,
      List.getD_eq_getElem?_getD, List.getElem?_eq_getElem hilen, Option.getD_some]
  · rw [List.getLastD_eq_getLast?, List.getLast?_eq_getElem?]
    have hlen : ((poly.drop i).take (j + 1 - i)).length = j + 1 - i := by
      simp only [List.length_take, List.length_drop]
      omega
    rw [hlen, List.getElem?_take, if_pos (by omega : j + 1 - i - 1 < j + 1 - i),
      List.getElem?_drop,
      show i + (j + 1 - i - 1) = j by omega,
      List.getElem?_eq_getElem hjlen, Option.getD_some,
      List.getD_eq_getElem?_getD, List.getElem?_eq_getElem hjlen, Option.getD_some]
  · simp only [findTrackPath, hidx, List.isEmpty_cons, hbwd]
    rw [min_eq_right (Nat.le_of_lt hij), max_eq_left (Nat.le_of_lt hij),
      if_pos (hij : j > i)]
    simp

lemma nearestAux_isSome (p : Coord) :
    ∀ (coords : List Coord) (i : ℕ) (acc : Option (ℕ × ℝ)),
      coords ≠ [] ∨ acc.isSome = true → (nearestAux p coords i acc).isSome = true := by
  intro coords
  induction coords with
  | nil =>
      intro i acc h
      simp only [nearestAux]
      rcases h with h | h
      · exact absurd rfl h
      · exact h
  | cons c rest ih =>
      intro i acc _
      simp only [nearestAux]
      apply ih
      right
      cases acc with
      | none => rfl
      | some pair =>
          obtain ⟨j, dj⟩ := pair
          simp only [nearestUpd]
          split_ifs <;> rfl

lemma nearestScan_eq_none_iff {p : Coord} {coords : List Coord} :
    nearestScan p coords = none ↔ coords = [] := by
  constructor
  · intro h
    by_contra hne
    have hs := nearestAux_isSome p coords 0 none (Or.inl hne)
    unfold nearestScan at h
    rw [h] at hs
    simp at hs
  · intro h
    subst h
    rfl

/-- Degenerate polylines (equal nearest indices, including the empty
polyline) never change the accumulator's qualification. -/
lemma bestUpd_inv (fromC toC : Coord) (seg : List Coord) (seen : List (List Coord))
    (acc : Option (List Coord × ℕ × ℕ × ℝ)) (h : SelInv fromC toC seen acc) :
    SelInv fromC toC (seen ++ [seg]) (bestUpd fromC toC seg acc) := by
  unfold bestUpd
  cases hfs : nearestScan fromC seg with
  | none =>
      have hseg : seg = [] := nearestScan_eq_none_iff.mp hfs
      have hts : nearestScan toC seg = none := by rw [hseg]; rfl
      rw [hts]
      cases acc with
      | none =>
          intro s2 hs2
          rcases List.mem_append.mp hs2 with h2 | h2
          · exact h s2 h2
          · rw [List.mem_singleton.mp h2]
            simp [nearestIdx, hfs, hts]
      | some quad =>
          obtain ⟨bseg, bfi, bti, bsc⟩ := quad
          obtain ⟨hmem, hfd, htd, hne, hsc, hmin⟩ := h
          refine ⟨List.mem_append_left _ hmem, hfd, htd, hne, hsc, ?_⟩
          intro s2 hs2 hnd
          rcases List.mem_append.mp hs2 with h2 | h2
          · exact hmin s2 h2 hnd
          · rw [List.mem_singleton.mp h2] at hnd
            exact absurd (by simp [nearestIdx, hfs, hts]) hnd
  | some fpair =>
      obtain ⟨fi, fd⟩ := fpair
      cases hts : nearestScan toC seg with
      | none =>
          have hseg : seg = [] := nearestScan_eq_none_iff.mp hts
          rw [hseg] at hfs
          simp [nearestScan, nearestAux] at hfs
      | some tpair =>
          obtain ⟨ti, td⟩ := tpair
          have hscore : segScore fromC toC seg = fd + td := by
            simp [segScore, hfs, hts]
          simp only
          cases acc with
          | none =>
              by_cases hne : fi ≠ ti
              · rw [if_pos hne]
                refine ⟨List.mem_append_right _ (List.mem_singleton_self seg),
                  ⟨fd, hfs⟩, ⟨td, hts⟩, hne, hscore.symm, ?_⟩
                intro s2 hs2 hnd
                rcases List.mem_append.mp hs2 with h2 | h2
                · exact absurd (h s2 h2) hnd
                · rw [List.mem_singleton.mp h2, hscore]
              · rw [if_neg hne]
                push_neg at hne
                intro s2 hs2
                rcases List.mem_append.mp hs2 with h2 | h2
                · exact h s2 h2
                · rw [List.mem_singleton.mp h2]
                  simp [nearestIdx, hfs, hts, hne]
          | some quad =>
              obtain ⟨bseg, bfi, bti, bsc⟩ := quad
              obtain ⟨hmem, hfd, htd, hbne, hbsc, hmin⟩ := h
              simp only
              by_cases hcond : fd + td < bsc ∧ fi ≠ ti
              · rw [if_pos hcond]
                refine ⟨List.mem_append_right _ (List.mem_singleton_self seg),
                  ⟨fd, hfs⟩, ⟨td, hts⟩, hcond.2, hscore.symm, ?_⟩
                intro s2 hs2 hnd
                rcases List.mem_append.mp hs2 with h2 | h2
                · exact le_of_lt (lt_of_lt_of_le hcond.1 (hmin s2 h2 hnd))
                · rw [List.mem_singleton.mp h2, hscore]
              · rw [if_neg hcond]
                refine ⟨List.mem_append_left _ hmem, hfd, htd, hbne, hbsc, ?_⟩
                intro s2 hs2 hnd
                rcases List.mem_append.mp hs2 with h2 | h2
                · exact hmin s2 h2 hnd
                · rw [List.mem_singleton.mp h2] at hnd ⊢
                  have hne : fi ≠ ti := by
                    intro heq
                    exact hnd (by simp [nearestIdx, hfs, hts, heq])
                  have hge : ¬ fd + td < bsc := fun hlt => hcond ⟨hlt, hne⟩
                  rw [hscore]
                  linarith [not_lt.mp hge]

/-- The selection fold preserves its invariant across any candidate list. -/
lemma bestSegAux_inv (fromC toC : Coord) :
    ∀ (segs seen : List (List Coord)) (acc : Option (List Coord × ℕ × ℕ × ℝ)),
      SelInv fromC toC seen acc →
      SelInv fromC toC (seen ++ segs) (bestSegAux fromC toC segs acc) := by
  intro segs
  induction segs with
  | nil =>
      intro seen acc h
      simpa using h
  | cons seg rest ih =>
      intro seen acc h
      have hres := ih (seen ++ [seg]) (bestUpd fromC toC seg acc)
        (bestUpd_inv fromC toC seg seen acc h)
      simp only [bestSegAux]
      simpa [List.append_assoc] using hres

/-- A list of polylines that are all degenerate never qualifies. -/
lemma bestSegAux_none_of_degenerate (fromC toC : Coord) :
    ∀ segs : List (List Coord),
      (∀ seg ∈ segs, nearestIdx fromC seg = nearestIdx toC seg) →
      bestSegAux fromC toC segs none = none := by
  intro segs
  induction segs with
  | nil => intro _; rfl
  | cons seg rest ih =>
      intro h
      simp only [bestSegAux]
      have hupd : bestUpd fromC toC seg none = none := by
        unfold bestUpd
        cases hfs : nearestScan fromC seg with
        | none => rfl
        | some fpair =>
            obtain ⟨fi, fd⟩ := fpair
            cases hts : nearestScan toC seg with
            | none => rfl
            | some tpair =>
                obtain ⟨ti, td⟩ := tpair
                simp only
                have hd := h seg (List.mem_cons_self seg rest)
                simp only [nearestIdx, hfs, hts, Option.map_some', Option.some.injEq] at hd
                rw [if_neg (by simp [hd])]
      rw [hupd]
      exact ih (fun s hs => h s (List.mem_cons_of_mem _ hs))

/-- Specification of a successful resolution: the returned path comes from a
scanned non-degenerate polyline of least score, sliced between its two
nearest indices and oriented from the `from` side. -/
lemma findTrackPath_some_spec {idx : LineIndex} {fromC toC : Coord} {name : String}
    {p : List Coord} (h : findTrackPath idx fromC toC name = some p) :
    ∃ seg ∈ idx name,
      nearestIdx fromC seg ≠ nearestIdx toC seg ∧
      (∀ seg2 ∈ idx name, nearestIdx fromC seg2 ≠ nearestIdx toC seg2 →
        segScore fromC toC seg ≤ segScore fromC toC seg2) ∧
      ∃ i j fd td, nearestScan fromC seg = some (i, fd) ∧
        nearestScan toC seg = some (j, td) ∧ i ≠ j ∧
        p = (if i > j then ((seg.drop (min i j)).take (max i j + 1 - min i j)).reverse
             else (seg.drop (min i j)).take (max i j + 1 - min i j)) := by
  unfold findTrackPath at h
  by_cases hemp : (idx name).isEmpty
  · rw [if_pos hemp] at h
    cases h
  rw [if_neg hemp] at h
  cases hb : bestSegAux fromC toC (idx name) none with
  | none =>
      rw [hb] at h
      cases h
  | some quad =>
      obtain ⟨seg, fi, ti, sc⟩ := quad
      rw [hb] at h
      simp only [Option.some.injEq] at h
      have hinv := bestSegAux_inv fromC toC (idx name) [] none
        (by intro s hs; exact absurd hs (List.not_mem_nil s))
      rw [hb] at hinv
      simp only [SelInv, List.nil_append] at hinv
      obtain ⟨hmem, ⟨fd, hfd⟩, ⟨td, htd⟩, hne, hsc, hmin⟩ := hinv
      refine ⟨seg, hmem, ?_, ?_, fi, ti, fd, td, hfd, htd, hne, h.symm⟩
      · simp [nearestIdx, hfd, htd, hne]
      · intro s2 hs2 hnd
        calc segScore fromC toC seg = sc := hsc.symm
          _ ≤ segScore fromC toC s2 := hmin s2 hs2 hnd

/-- C4: the resolver returns null exactly when no polyline qualifies —
either no polyline is registered under the line name, or every candidate's
nearest index to `from` coincides with its nearest index to `to` — and a
successful resolution selects a non-degenerate candidate whose score
(sum of the two nearest-point distances) is least among all non-degenerate
candidates. -/
theorem resolver_null_and_selection (idx : LineIndex) (fromC toC : Coord)
    (name : String) :
    (findTrackPath idx fromC toC name = none ↔
      idx name = [] ∨ ∀ seg ∈ idx name, nearestIdx fromC seg = nearestIdx toC seg) ∧
    (∀ p, findTrackPath idx fromC toC name = some p →
      ∃ seg ∈ idx name,
        nearestIdx fromC seg ≠ nearestIdx toC seg ∧
        (∀ seg2 ∈ idx name, nearestIdx fromC seg2 ≠ nearestIdx toC seg2 →
          segScore fromC toC seg ≤ segScore fromC toC seg2) ∧
        ∃ i j fd td, nearestScan fromC seg = some (i, fd) ∧
          nearestScan toC seg = some (j, td) ∧ i ≠ j ∧
          p = (if i > j then ((seg.drop (min i j)).take (max i j + 1 - min i j)).reverse
               else (seg.drop (min i j)).take (max i j + 1 - min i j))) := by
  constructor
  · constructor
    · intro h
      by_cases hemp : idx name = []
      · exact Or.inl hemp
      right
      unfold findTrackPath at h
      rw [if_neg (by simp [List.isEmpty_iff, hemp])] at h
      cases hb : bestSegAux fromC toC (idx name) none with
      | some quad =>
          obtain ⟨seg, fi, ti, sc⟩ := quad
          rw [hb] at h
          simp at h
      | none =>
          have hinv := bestSegAux_inv fromC toC (idx name) [] none
            (by intro s hs; exact absurd hs (List.not_mem_nil s))
          rw [hb] at hinv
          simp only [SelInv, List.nil_append] at hinv
          exact hinv
    · intro h
      rcases h with h | h
      · unfold findTrackPath
        rw [h]
        rfl
      · unfold findTrackPath
        by_cases hemp : (idx name).isEmpty
        · rw [if_pos hemp]
        · rw [if_neg hemp, bestSegAux_none_of_degenerate fromC toC (idx name) h]
  · intro p hp
    exact findTrackPath_some_spec hp

/-- C4 witness: resolving with `from` equal to `to` on a registered polyline
returns null — every candidate's two nearest indices coincide. -/
theorem resolver_null_and_selection_witness :
    findTrackPath (fun _ => [polyEx]) ((0 : ℝ), (0 : ℝ)) ((0 : ℝ), (0 : ℝ)) "X" = none :=
  (resolver_null_and_selection (fun _ => [polyEx]) ((0 : ℝ), (0 : ℝ))
    ((0 : ℝ), (0 : ℝ)) "X").1.mpr (Or.inr (fun _ _ => rfl))

lemma nearestScan_polyEx_left :
    nearestScan ((0 : ℝ), (0 : ℝ)) polyEx = some (0, 0) := by
  norm_num [polyEx, nearestScan, nearestAux, nearestUpd, distance_horiz,
    -Prod.mk_zero_zero]

lemma nearestScan_polyEx_right :
    nearestScan ((6 : ℝ), (0 : ℝ)) polyEx = some (2, 0) := by
  norm_num [polyEx, nearestScan, nearestAux, nearestUpd, distance_horiz,
    -Prod.mk_zero_zero]

/-- Concrete evaluation of the resolver on `polyEx` from its first to its
last vertex: the whole polyline is returned. -/
lemma findTrackPath_polyEx :
    findTrackPath (fun _ => [polyEx]) ((0 : ℝ), (0 : ℝ)) ((6 : ℝ), (0 : ℝ))
      "Victoria" = some polyEx := by
  simp only [findTrackPath, List.isEmpty_cons, bestSegAux, bestUpd,
    nearestScan_polyEx_left, nearestScan_polyEx_right]
  rw [if_pos (by norm_num : (0 : ℕ) ≠ 2)]
  norm_num [polyEx]

/-- C3 witness: the orientation law evaluated on the concrete three-vertex
polyline with `from` nearest to index 0 and `to` nearest to index 2. -/
theorem path_extraction_orientation_witness :
    ((fun _ : String => [polyEx]) "Victoria" = [polyEx] ∧
     nearestScan ((0 : ℝ), (0 : ℝ)) polyEx = some (0, 0) ∧
     nearestScan ((6 : ℝ), (0 : ℝ)) polyEx = some (2, 0) ∧
     (0 : ℕ) < 2) ∧
    (findTrackPath (fun _ => [polyEx]) ((0 : ℝ), (0 : ℝ)) ((6 : ℝ), (0 : ℝ)) "Victoria" =
       some ((polyEx.drop 0).take (2 + 1 - 0)) ∧
     ((polyEx.drop 0).take (2 + 1 - 0)).headI = polyEx.getD 0 (0, 0) ∧
     ((polyEx.drop 0).take (2 + 1 - 0)).getLastD (0, 0) = polyEx.getD 2 (0, 0) ∧
     findTrackPath (fun _ => [polyEx]) ((6 : ℝ), (0 : ℝ)) ((0 : ℝ), (0 : ℝ)) "Victoria" =
       some (((polyEx.drop 0).take (2 + 1 - 0)).reverse)) :=
  ⟨⟨rfl, nearestScan_polyEx_left, nearestScan_polyEx_right, by norm_num⟩,
   path_extraction_orientation (fun _ => [polyEx]) "Victoria" polyEx
     ((0 : ℝ), (0 : ℝ)) ((6 : ℝ), (0 : ℝ)) 0 2 0 0 rfl
     nearestScan_polyEx_left nearestScan_polyEx_right (by norm_num)⟩

/-- C10: every non-null resolved path has at least two coordinates, so it
always satisfies the animation driver's `trackPath.length >= 2` guard and
supports interpolation between distinct endpoints. -/
theorem resolved_path_two_points (idx : LineIndex) (fromC toC : Coord)
    (name : String) (p : List Coord)
    (h : findTrackPath idx fromC toC name = some p) : 2 ≤ p.length := by
  obtain ⟨seg, hmem, hnd, hmin, i, j, fd, td, hfs, hts, hij, hp⟩ :=
    findTrackPath_some_spec h
  have hi : i < seg.length := nearestScan_lt_length hfs
  have hj : j < seg.length := nearestScan_lt_length hts
  subst hp
  split_ifs with hgt <;>
    simp only [List.length_reverse, List.length_take, List.length_drop] <;>
    omega

/-- C10 witness: the concrete resolved path `polyEx` has at least two
coordinates. -/
theorem resolved_path_two_points_witness :
    findTrackPath (fun _ => [polyEx]) ((0 : ℝ), (0 : ℝ)) ((6 : ℝ), (0 : ℝ)) "Victoria" =
      some polyEx ∧ 2 ≤ polyEx.length :=
  ⟨findTrackPath_polyEx,
   resolved_path_two_points (fun _ => [polyEx]) ((0 : ℝ), (0 : ℝ)) ((6 : ℝ), (0 : ℝ))
     "Victoria" polyEx findTrackPath_polyEx⟩

/-- When the target distance falls strictly inside the remaining arc length
and no segment is degenerate, the walk's accumulated distance is exactly the
target. -/
lemma walkSegDist_eq_target (target : ℝ) :
    ∀ (segs : List (Coord × Coord)) (cur fb : ℝ),
      segs ≠ [] →
      target < cur + ((segs.map fun pq => distance pq.1 pq.2)).sum →
      (∀ pq ∈ segs, distance pq.1 pq.2 ≠ 0) →
      walkSegDist target cur segs fb = target := by
  intro segs
  induction segs with
  | nil => intro cur fb h _ _; exact absurd rfl h
  | cons hd rest ih =>
      intro cur fb _ hlt hnz
      obtain ⟨p1, p2⟩ := hd
      simp only [walkSegDist]
      by_cases hge : cur + distance p1 p2 ≥ target
      · rw [if_pos hge, div_mul_cancel₀ _ (hnz (p1, p2) (List.mem_cons_self _ _))]
        ring
      · rw [if_neg hge]
        push_neg at hge
        rcases eq_or_ne rest [] with hr | hr
        · subst hr
          simp only [List.map_cons, List.map_nil, List.sum_cons, List.sum_nil,
            add_zero] at hlt
          linarith
        · apply ih (cur + distance p1 p2) fb hr
          · simp only [List.map_cons, List.sum_cons] at hlt
            linarith
          · intro pq2 hpq2
            exact hnz pq2 (List.mem_cons_of_mem _ hpq2)

lemma zip_tail_ne_nil {path : List Coord} (h2 : 2 ≤ path.length) :
    path.zip path.tail ≠ [] := by
  apply List.ne_nil_of_length_pos
  rw [List.length_zip, List.length_tail]
  omega

lemma totalLength_pos {path : List Coord} (h2 : 2 ≤ path.length)
    (hpos : ∀ pq ∈ path.zip path.tail, 0 < distance pq.1 pq.2) :
    0 < totalLength path := by
  apply List.sum_pos
  · intro x hx
    obtain ⟨pq, hpq, rfl⟩ := List.mem_map.mp hx
    exact hpos pq hpq
  · simp only [ne_eq, List.map_eq_nil_iff]
    exact zip_tail_ne_nil h2

/-- In the strictly interior regime the walk's accumulated distance equals
`progress × total`. -/
lemma traveledAt_eq_target {path : List Coord} (h2 : 2 ≤ path.length)
    (hpos : ∀ pq ∈ path.zip path.tail, 0 < distance pq.1 pq.2)
    {t : ℝ} (h0 : 0 < t) (h1 : t < 1) :
    traveledAt path t = t * totalLength path := by
  have htot := totalLength_pos h2 hpos
  unfold traveledAt
  rw [if_neg (by omega : ¬ path.length = 0), if_neg (by omega : ¬ path.length = 1),
    if_neg (by linarith : ¬ t ≤ 0), if_neg (by linarith : ¬ t ≥ 1),
    if_neg (by linarith : ¬ totalLength path = 0)]
  apply walkSegDist_eq_target (t * totalLength path) (path.zip path.tail) 0
    (totalLength path) (zip_tail_ne_nil h2)
  · show t * totalLength path < 0 + totalLength path
    nlinarith
  · intro pq hpq
    exact ne_of_gt (hpos pq hpq)

lemma traveledAt_of_nonpos (path : List Coord) {t : ℝ} (ht : t ≤ 0) :
    traveledAt path t = 0 := by
  unfold traveledAt
  by_cases h0 : path.length = 0
  · rw [if_pos h0]
  rw [if_neg h0]
  by_cases h1 : path.length = 1
  · rw [if_pos h1]
  rw [if_neg h1, if_pos ht]

lemma traveledAt_of_ge_one (path : List Coord) (h2 : 2 ≤ path.length) {t : ℝ}
    (ht : t ≥ 1) : traveledAt path t = totalLength path := by
  unfold traveledAt
  rw [if_neg (by omega : ¬ path.length = 0), if_neg (by omega : ¬ path.length = 1),
    if_neg (by linarith : ¬ t ≤ 0), if_pos ht]

lemma traveledAt_mono {path : List Coord} (h2 : 2 ≤ path.length)
    (hpos : ∀ pq ∈ path.zip path.tail, 0 < distance pq.1 pq.2)
    {t1 t2 : ℝ} (h01 : 0 ≤ t1) (h12 : t1 ≤ t2) (h21 : t2 ≤ 1) :
    traveledAt path t1 ≤ traveledAt path t2 := by
  have htot := totalLength_pos h2 hpos
  by_cases ht1 : t1 ≤ 0
  · rw [traveledAt_of_nonpos path ht1]
    by_cases ht2 : t2 ≤ 0
    · rw [traveledAt_of_nonpos path ht2]
    · push_neg at ht2
      by_cases ht2b : t2 ≥ 1
      · rw [traveledAt_of_ge_one path h2 ht2b]
        linarith
      · push_neg at ht2b
        rw [traveledAt_eq_target h2 hpos ht2 ht2b]
        nlinarith
  · push_neg at ht1
    by_cases ht1b : t1 ≥ 1
    · rw [traveledAt_of_ge_one path h2 ht1b,
        traveledAt_of_ge_one path h2 (by linarith : t2 ≥ 1)]
    · push_neg at ht1b
      by_cases ht2b : t2 ≥ 1
      · rw [traveledAt_eq_target h2 hpos ht1 ht1b, traveledAt_of_ge_one path h2 ht2b]
        nlinarith
      · push_neg at ht2b
        rw [traveledAt_eq_target h2 hpos ht1 ht1b,
          traveledAt_eq_target h2 hpos (by linarith : (0 : ℝ) < t2) ht2b]
        nlinarith

/-- The point walk and the distance walk trigger at the same segment: the
sampled point is the within-segment linear interpolation of the segment
reached after accumulating the earlier segment lengths, and the traveled
distance decomposes as that prefix sum plus the within-segment remainder. -/
lemma walk_decomp (target : ℝ) :
    ∀ (segs : List (Coord × Coord)) (cur : ℝ) (fb : Coord) (fb2 : ℝ),
      segs ≠ [] →
      target < cur + ((segs.map fun pq => distance pq.1 pq.2)).sum →
      ∃ pre p q post,
        segs = pre ++ (p, q) :: post ∧
        walkSeg target cur segs fb =
          (p.1 + (q.1 - p.1) *
             ((target - (cur + ((pre.map fun pq => distance pq.1 pq.2)).sum)) /
               distance p q),
           p.2 + (q.2 - p.2) *
             ((target - (cur + ((pre.map fun pq => distance pq.1 pq.2)).sum)) /
               distance p q)) ∧
        walkSegDist target cur segs fb2 =
          (cur + ((pre.map fun pq => distance pq.1 pq.2)).sum) +
            (target - (cur + ((pre.map fun pq => distance pq.1 pq.2)).sum)) /
              distance p q * distance p q := by
  intro segs
  induction segs with
  | nil => intro cur fb fb2 h _; exact absurd rfl h
  | cons hd rest ih =>
      intro cur fb fb2 _ hlt
      obtain ⟨p1, p2⟩ := hd
      simp only [walkSeg, walkSegDist]
      by_cases hge : cur + distance p1 p2 ≥ target
      · rw [if_pos hge, if_pos hge]
        refine ⟨[], p1, p2, rest, rfl, ?_, ?_⟩
        · simp
        · simp
      · rw [if_neg hge, if_neg hge]
        push_neg at hge
        rcases eq_or_ne rest [] with hr | hr
        · subst hr
          simp only [List.map_cons, List.map_nil, List.sum_cons, List.sum_nil,
            add_zero] at hlt
          linarith
        · obtain ⟨pre, p, q, post, hseg, hws, hwd⟩ :=
            ih (cur + distance p1 p2) fb fb2 hr
              (by simp only [List.map_cons, List.sum_cons] at hlt; linarith)
          refine ⟨(p1, p2) :: pre, p, q, post, by rw [hseg, List.cons_append], ?_, ?_⟩
          · rw [hws]
            simp only [List.map_cons, List.sum_cons, Prod.mk.injEq]
            constructor <;> ring_nf
          · rw [hwd]
            simp only [List.map_cons, List.sum_cons]
            ring_nf

/-- C6: for a path whose cumulative arc length is strictly increasing, the
walk's accumulated traveled distance at interior progress t equals
t × total length, it is non-decreasing in t over [0, 1], and the sampled
point is the linear interpolation, by the fractional remainder, within the
segment reached after accumulating the preceding segment lengths in order. -/
theorem sampler_arc_length_monotone (path : List Coord) (h2 : 2 ≤ path.length)
    (hpos : ∀ pq ∈ path.zip path.tail, 0 < distance pq.1 pq.2) :
    (∀ t : ℝ, 0 < t → t < 1 → traveledAt path t = t * totalLength path) ∧
    (∀ t1 t2 : ℝ, 0 ≤ t1 → t1 ≤ t2 → t2 ≤ 1 →
      traveledAt path t1 ≤ traveledAt path t2) ∧
    (∀ t : ℝ, 0 < t → t < 1 →
      ∃ pre p q post, path.zip path.tail = pre ++ (p, q) :: post ∧
        interpolateAlongPath path t =
          (p.1 + (q.1 - p.1) *
             ((t * totalLength path - ((pre.map fun pq => distance pq.1 pq.2)).sum) /
               distance p q),
           p.2 + (q.2 - p.2) *
             ((t * totalLength path - ((pre.map fun pq => distance pq.1 pq.2)).sum) /
               distance p q)) ∧
        traveledAt path t =
          ((pre.map fun pq => distance pq.1 pq.2)).sum +
            (t * totalLength path - ((pre.map fun pq => distance pq.1 pq.2)).sum) /
              distance p q * distance p q) := by
  refine ⟨fun t h0 h1 => traveledAt_eq_target h2 hpos h0 h1,
    fun t1 t2 h01 h12 h21 => traveledAt_mono h2 hpos h01 h12 h21,
    fun t h0 h1 => ?_⟩
  have htot := totalLength_pos h2 hpos
  have hlt : t * totalLength path <
      0 + ((path.zip path.tail).map fun pq => distance pq.1 pq.2).sum := by
    show t * totalLength path < 0 + totalLength path
    nlinarith
  obtain ⟨pre, p, q, post, hseg, hws, hwd⟩ :=
    walk_decomp (t * totalLength path) (path.zip path.tail) 0 (path.getLastD (0, 0))
      (totalLength path) (zip_tail_ne_nil h2) hlt
  rw [zero_add] at hws hwd
  refine ⟨pre, p, q, post, hseg, ?_, ?_⟩
  · unfold interpolateAlongPath
    rw [if_neg (by omega : ¬ path.length = 0), if_neg (by omega : ¬ path.length = 1),
      if_neg (by linarith : ¬ t ≤ 0), if_neg (by linarith : ¬ t ≥ 1),
      if_neg (by linarith : ¬ totalLength path = 0)]
    exact hws
  · unfold traveledAt
    rw [if_neg (by omega : ¬ path.length = 0), if_neg (by omega : ¬ path.length = 1),
      if_neg (by linarith : ¬ t ≤ 0), if_neg (by linarith : ¬ t ≥ 1),
      if_neg (by linarith : ¬ totalLength path = 0)]
    exact hwd

/-- C6 witness: the arc-length law evaluated on the concrete two-point path
of segment length 3. -/
theorem sampler_arc_length_monotone_witness :
    (2 ≤ pathEx.length ∧
      ∀ pq ∈ pathEx.zip pathEx.tail, 0 < distance pq.1 pq.2) ∧
    (∀ t : ℝ, 0 < t → t < 1 → traveledAt pathEx t = t * totalLength pathEx) :=
  ⟨⟨by norm_num [pathEx],
    by
      intro pq hpq
      norm_num [pathEx, -Prod.mk_zero_zero] at hpq
      rw [hpq]
      norm_num [distance_horiz, -Prod.mk_zero_zero]⟩,
   (sampler_arc_length_monotone pathEx (by norm_num [pathEx])
     (by
       intro pq hpq
       norm_num [pathEx, -Prod.mk_zero_zero] at hpq
       rw [hpq]
       norm_num [distance_horiz, -Prod.mk_zero_zero])).1⟩

end DWMT
